import Mathlib

/-!
Shallow embedding of `dragondance-rs` (src/lib.rs): a code-coverage trace
recorder that serializes to the dragondance Pin Helper file format.

Modelling conventions:
* Machine integers (`u64`, `u32`, `u16`, `usize`) are `Nat` with explicit
  bounds / `% 2^w` where the Rust code can truncate.
* Module names (`&'static str`) are modelled as their byte sequences
  (`List Nat`), since the writer emits them verbatim as bytes.
* A byte sink (`impl Write`) is modelled as explicit state passing of the
  bytes written so far (`List Nat`); a write appends bytes.
* `to_ne_bytes` (native byte order) is modelled as little-endian, the native
  order of the typical producing machine; the claims about field layout are
  stated through this encoding function.
* Rust panics (`assert!`, `expect`, `unwrap`, and arithmetic overflow under
  the checked/debug semantics the crate's own tests run under) are modelled
  as `Option.none` results.
-/

namespace DD

/-- Rust `u16::MAX`. -/
def u16MAX : Nat := 0xFFFF

/-- Rust `u32::MAX`. -/
def u32MAX : Nat := 0xFFFFFFFF

/-- Model of `n.to_ne_bytes()` for a `w`-byte unsigned integer, native order modelled
as little-endian: least significant byte first. -/
def toNeBytes : Nat → Nat → List Nat
  | 0, _ => []
  | w + 1, n => n % 256 :: toNeBytes w (n / 256)

/-- Decode a little-endian byte list back to a natural number. -/
def fromNeBytes : List Nat → Nat
  | [] => 0
  | b :: bs => b + 256 * fromNeBytes bs

/-- Model of `buf[start..start+src.len()].copy_from_slice(&src)`: overwrite the slice
of `buf` starting at `start` with `src`. -/
def copyFromSlice (buf : List Nat) (start : Nat) (src : List Nat) : List Nat :=
  buf.take start ++ src ++ buf.drop (start + src.length)

/-- Bytes of a string literal from the Rust source (all are ASCII). -/
def strBytes (s : String) : List Nat :=
  s.data.map Char.toNat

/-- Bytes of the Rust `{}` (decimal) formatting of an unsigned integer. -/
def decBytes (n : Nat) : List Nat :=
  (Nat.toDigits 10 n).map Char.toNat

/-- Bytes of the Rust `{:#x}` formatting: `0x` then lowercase hex digits. -/
def hexBytes (n : Nat) : List Nat :=
  strBytes "0x" ++ (Nat.toDigits 16 n).map Char.toNat

/-- Model of `writeln!(writer, ...)`: append the line's bytes and a newline (0x0A)
to the sink. -/
def writelnTo (w : List Nat) (s : List Nat) : List Nat :=
  w ++ s ++ [10]

/-- Rust `struct Module`: a named executable object. The Rust field `end` is a
Lean keyword, so it is named `endAddr` here. `name` is the byte sequence of
the `&'static str`. -/
structure Module where
  name : List Nat
  base : Nat
  endAddr : Nat
deriving DecidableEq, Repr

/-- Rust `Module::new`: panics (here: `none`) unless `base < end` and
`end - base <= u32::MAX`. -/
def Module.new (name : List Nat) (base endAddr : Nat) : Option Module :=
  if base < endAddr then
    if endAddr - base ≤ u32MAX then
      some ⟨name, base, endAddr⟩
    else
      none
  else
    none

/-- Rust `Module::contains`: `self.base <= pc && pc < self.end`. -/
def Module.contains (m : Module) (pc : Nat) : Bool :=
  decide (m.base ≤ pc) && decide (pc < m.endAddr)

/-- The invariant `Module::new` establishes (every Rust `Module` value
satisfies it, since the fields are private). -/
def Module.Wf (m : Module) : Prop :=
  m.base < m.endAddr ∧ m.endAddr - m.base ≤ u32MAX

instance (m : Module) : Decidable m.Wf := by
  unfold Module.Wf; infer_instance

/-- Rust `struct Entry`: one coverage event. `offset : u32`, `size : u16`,
`module : u16`, modelled as bounded naturals. -/
structure Entry where
  offset : Nat
  size : Nat
  module : Nat
deriving DecidableEq, Repr

/-- Rust `struct Trace`: module registry plus entry log. -/
structure Trace where
  modules : List Module
  entries : List Entry
deriving DecidableEq, Repr

/-- Rust `Trace::new`: copy the module slice, start with no entries. -/
def Trace.new (modules : List Module) : Trace :=
  ⟨modules, []⟩

/-- Model of `self.modules.iter().find(|m| m.contains(pc))`. -/
def Trace.module_containing (t : Trace) (pc : Nat) : Option Module :=
  t.modules.find? (fun m => m.contains pc)

/-- Model of `self.modules.iter().enumerate().find(|(_, m)| m.contains(pc))`,
with `i` the index of the head of `l` in the full list. -/
def findEnumAux (p : Module → Bool) (i : Nat) : List Module → Option (Nat × Module)
  | [] => none
  | m :: ms => if p m then some (i, m) else findEnumAux p (i + 1) ms

/-- The enumerated first-match search used by `Trace::add`. -/
def findEnum (p : Module → Bool) (l : List Module) : Option (Nat × Module) :=
  findEnumAux p 0 l

/-- Rust `Trace::add`: convert `size` to `u16` (panic if `> u16::MAX`), find the
first module containing `pc` (panic if none), build the entry with
`offset = pc - module.base` (`try_into().unwrap()`: panic if `> u32::MAX`)
and `module = id as u16 + 1` (the cast truncates `id` mod `2^16`; the `+ 1`
is checked `u16` addition, panic on overflow), and push it.
Every panic is modelled as `none`. -/
def Trace.add (t : Trace) (pc : Nat) (size : Nat) : Option Trace :=
  if size > u16MAX then
    none
  else
    match findEnum (fun m => m.contains pc) t.modules with
    | none => none
    | some (id, m) =>
      if pc - m.base > u32MAX then
        none
      else if id % 65536 + 1 > u16MAX then
        none
      else
        some ⟨t.modules, t.entries ++ [⟨pc - m.base, size, id % 65536 + 1⟩]⟩

/-- Rust `Entry::write`: build the 12-byte record exactly as the Rust does
(zero-filled buffer, then three `copy_from_slice` stores and a zero
`inst_count` store) and append it to the sink. -/
def Entry.bytes (e : Entry) : List Nat :=
  let buf := List.replicate 12 0
  let buf := copyFromSlice buf 0 (toNeBytes 4 e.offset)
  let buf := copyFromSlice buf 4 (toNeBytes 2 e.size)
  let buf := copyFromSlice buf 6 (toNeBytes 2 e.module)
  let instCount : Nat := 0
  copyFromSlice buf 8 (toNeBytes 4 instCount)

/-- Rust `Entry::write` appends the record to the sink (`w.write_all(&buf)`). -/
def Entry.write (e : Entry) (w : List Nat) : List Nat :=
  w ++ e.bytes

/-- The bytes of one module-table line:
`writeln!(writer, "{number}, {base:#x}, {end:#x}, {name}")` with
`number = index + 1`. -/
def moduleLineBody (number : Nat) (m : Module) : List Nat :=
  decBytes (number + 1) ++ strBytes ", " ++ hexBytes m.base ++ strBytes ", "
    ++ hexBytes m.endAddr ++ strBytes ", " ++ m.name

/-- Rust `Trace::write`: emit header, counts line, module table, entry table to
the sink, in source order, threading the sink state. -/
def Trace.write (t : Trace) (w : List Nat) : List Nat :=
  let w := writelnTo w (strBytes "DDPH-PINTOOL")
  let w := writelnTo w (strBytes "EntryCount: " ++ decBytes t.entries.length
    ++ strBytes ", ModuleCount: " ++ decBytes t.modules.length)
  let w := writelnTo w (strBytes "MODULE_TABLE")
  let w := t.modules.enum.foldl (fun w nm => writelnTo w (moduleLineBody nm.1 nm.2)) w
  let w := writelnTo w (strBytes "ENTRY_TABLE")
  t.entries.foldl (fun w e => e.write w) w

/-! ## Spec-side description of the wire format

The following definitions follow the words of the spec (§6, on-disk/wire
format) rather than the control flow of `Trace::write`; the writer is proved
equal to them. -/

/-- Spec §6, lines 4..4+M-1: `"<index>, <base_hex>, <end_hex>, <name>"`,
index 1-based, newline-terminated. -/
def specModuleLine (index : Nat) (m : Module) : List Nat :=
  decBytes index ++ strBytes ", " ++ hexBytes m.base ++ strBytes ", "
    ++ hexBytes m.endAddr ++ strBytes ", " ++ m.name ++ [10]

/-- Spec §6: the module table is one line per module, in registration order,
with 1-based indices. -/
def specModuleTable (ms : List Module) : List Nat :=
  (ms.enum.map (fun p => specModuleLine (p.1 + 1) p.2)).flatten

/-- Spec §6: the entry table is one 12-byte record per entry, in append
order. -/
def specEntryTable (es : List Entry) : List Nat :=
  (es.map Entry.bytes).flatten

/-- Spec §6: the whole file, with the counts line reporting the current
entry and module counts. -/
def specOutput (t : Trace) : List Nat :=
  strBytes "DDPH-PINTOOL" ++ [10]
    ++ strBytes "EntryCount: " ++ decBytes t.entries.length
    ++ strBytes ", ModuleCount: " ++ decBytes t.modules.length ++ [10]
    ++ strBytes "MODULE_TABLE" ++ [10]
    ++ specModuleTable t.modules
    ++ strBytes "ENTRY_TABLE" ++ [10]
    ++ specEntryTable t.entries

/-- Variant of `Trace::add` with the conversion-failure branch of the offset
computation (`(pc - module.base).try_into().unwrap()`) removed: used to
state that this branch is unreachable when every module satisfies the
constructor invariant. -/
def Trace.addNoCheck (t : Trace) (pc : Nat) (size : Nat) : Option Trace :=
  if size > u16MAX then
    none
  else
    match findEnum (fun m => m.contains pc) t.modules with
    | none => none
    | some (id, m) =>
      if id % 65536 + 1 > u16MAX then
        none
      else
        some ⟨t.modules, t.entries ++ [⟨pc - m.base, size, id % 65536 + 1⟩]⟩

/-- Traces reachable through the public API: `Trace::new` over a module
slice, followed by any sequence of successful `add` calls. -/
inductive Reachable : Trace → Prop
  | new (modules : List Module) : Reachable (Trace.new modules)
  | add {t t' : Trace} {pc size : Nat} :
      Reachable t → t.add pc size = some t' → Reachable t'

/-- The module of the crate's doc example: `Module::new("abcd", 0x1000, 0x2000)`
(`"abcd"` is the bytes 97, 98, 99, 100). -/
def mAbcd : Module := ⟨[97, 98, 99, 100], 0x1000, 0x2000⟩

/-- Filler module (name `"a"`) used to pad a registry past the 16-bit index
space. -/
def mFill : Module := ⟨[97], 0x1000, 0x2000⟩

/-- A module (name `"b"`) registered after 65536 fillers. -/
def mLast : Module := ⟨[98], 0x4000, 0x6000⟩

/-- A registry of 65537 modules: 65536 copies of `mFill` then `mLast`. -/
def overflowModules : List Module := List.replicate 65536 mFill ++ [mLast]

/-- The trace over `overflowModules` with no entries yet. -/
def overflowTrace : Trace := Trace.new overflowModules

/-! ## Helper lemmas about the writer -/

theorem foldl_moduleLines :
    ∀ (l : List (Nat × Module)) (w : List Nat),
      l.foldl (fun acc nm => writelnTo acc (moduleLineBody nm.1 nm.2)) w
        = w ++ (l.map (fun nm => moduleLineBody nm.1 nm.2 ++ [10])).flatten := by
  intro l
  induction l with
  | nil => intro w; simp
  | cons a l ih =>
    intro w
    rw [List.foldl_cons, ih]
    simp [writelnTo, List.append_assoc]

theorem foldl_entry_write :
    ∀ (es : List Entry) (w : List Nat),
      es.foldl (fun acc e => e.write acc) w = w ++ (es.map Entry.bytes).flatten := by
  intro es
  induction es with
  | nil => intro w; simp
  | cons e es ih =>
    intro w
    rw [List.foldl_cons, ih]
    simp [Entry.write, List.append_assoc]

/-- The writer appends exactly the spec-described output, whatever the sink
already holds. -/
theorem write_eq_append (t : Trace) (w : List Nat) :
    t.write w = w ++ specOutput t := by
  unfold Trace.write
  dsimp only
  rw [foldl_moduleLines, foldl_entry_write]
  simp only [specOutput, specModuleTable, specEntryTable, specModuleLine,
    moduleLineBody, writelnTo]
  simp [List.append_assoc]

/-! ## Helper lemmas about the byte-level record layout -/

theorem toNeBytes_length : ∀ (w n : Nat), (toNeBytes w n).length = w
  | 0, _ => rfl
  | w + 1, n => by simp [toNeBytes, toNeBytes_length w]

theorem fromNeBytes_toNeBytes : ∀ (w n : Nat), fromNeBytes (toNeBytes w n) = n % 256 ^ w := by
  intro w
  induction w with
  | zero => intro n; simp [toNeBytes, fromNeBytes, Nat.mod_one]
  | succ w ih =>
    intro n
    rw [toNeBytes, fromNeBytes, ih, pow_succ', Nat.mod_mul]

theorem Entry.bytes_eq (e : Entry) :
    e.bytes = toNeBytes 4 e.offset ++ toNeBytes 2 e.size ++ toNeBytes 2 e.module
      ++ [0, 0, 0, 0] := by
  simp [Entry.bytes, copyFromSlice]
  rfl

theorem Entry.bytes_length (e : Entry) : e.bytes.length = 12 := by
  rw [Entry.bytes_eq]
  simp [toNeBytes_length]

/-! ## Helper lemmas about the enumerated module search in `Trace::add` -/

theorem findEnumAux_cons (p : Module → Bool) (x : Module) (xs : List Module) (k : Nat) :
    findEnumAux p k (x :: xs)
      = if p x then some (k, x) else findEnumAux p (k + 1) xs := rfl

theorem findEnumAux_eq_none (p : Module → Bool) :
    ∀ (l : List Module) (k : Nat), (∀ m ∈ l, p m = false) → findEnumAux p k l = none := by
  intro l
  induction l with
  | nil => intro k _; rfl
  | cons x xs ih =>
    intro k h
    rw [findEnumAux_cons, if_neg (by simp [h x (by simp)])]
    exact ih (k + 1) (fun m hm => h m (by simp [hm]))

theorem findEnumAux_some_ge (p : Module → Bool) :
    ∀ (l : List Module) (k : Nat) (r : Nat × Module),
      findEnumAux p k l = some r → k ≤ r.1 := by
  intro l
  induction l with
  | nil => intro k r h; simp [findEnumAux] at h
  | cons x xs ih =>
    intro k r h
    rw [findEnumAux_cons] at h
    by_cases hp : p x = true
    · rw [if_pos hp] at h
      cases h
      exact Nat.le_refl k
    · rw [if_neg hp] at h
      exact Nat.le_of_succ_le (ih (k + 1) r h)

theorem findEnumAux_eq_some_iff (p : Module → Bool) :
    ∀ (l : List Module) (k i : Nat) (m : Module),
      findEnumAux p k l = some (k + i, m)
        ↔ (l.get? i = some m ∧ p m = true
            ∧ ∀ j, j < i → ∀ m', l.get? j = some m' → p m' = false) := by
  intro l
  induction l with
  | nil => intro k i m; simp [findEnumAux]
  | cons x xs ih =>
    intro k i m
    rw [findEnumAux_cons]
    by_cases hp : p x = true
    · rw [if_pos hp]
      cases i with
      | zero =>
        simp only [Nat.add_zero, List.get?_cons_zero]
        constructor
        · intro h
          cases h
          exact ⟨rfl, hp, by omega⟩
        · intro ⟨h1, _, _⟩
          cases h1
          rfl
      | succ i =>
        constructor
        · intro h
          simp only [Option.some_inj, Prod.mk.injEq] at h
          exact absurd h.1 (by omega)
        · intro ⟨_, _, hfirst⟩
          have := hfirst 0 (by omega) x (by simp)
          rw [hp] at this
          cases this
    · rw [if_neg hp]
      cases i with
      | zero =>
        constructor
        · intro h
          have := findEnumAux_some_ge p xs (k + 1) _ h
          simp only at this
          exact absurd this (by omega)
        · intro ⟨h1, h2, _⟩
          simp only [List.get?_cons_zero, Option.some_inj] at h1
          rw [← h1] at h2
          rw [h2] at hp
          cases hp rfl
      | succ i =>
        rw [show k + (i + 1) = (k + 1) + i by omega, ih (k + 1) i m]
        constructor
        · intro ⟨h1, h2, hfirst⟩
          refine ⟨h1, h2, fun j hj m' hm' => ?_⟩
          cases j with
          | zero =>
            simp only [List.get?_cons_zero, Option.some_inj] at hm'
            rw [← hm']
            exact Bool.eq_false_iff.mpr hp
          | succ j =>
            exact hfirst j (by omega) m' hm'
        · intro ⟨h1, h2, hfirst⟩
          exact ⟨h1, h2, fun j hj m' hm' => hfirst (j + 1) (by omega) m' hm'⟩

/-- First-match characterization of the enumerated search. -/
theorem findEnum_eq_some_iff (p : Module → Bool) (l : List Module) (i : Nat) (m : Module) :
    findEnum p l = some (i, m)
      ↔ (l.get? i = some m ∧ p m = true
          ∧ ∀ j, j < i → ∀ m', l.get? j = some m' → p m' = false) := by
  have h := findEnumAux_eq_some_iff p l 0 i m
  rw [Nat.zero_add] at h
  exact h

theorem findEnum_eq_none (p : Module → Bool) (l : List Module)
    (h : ∀ m ∈ l, p m = false) : findEnum p l = none :=
  findEnumAux_eq_none p l 0 h

theorem findEnum_some_facts (p : Module → Bool) (l : List Module) (i : Nat) (m : Module)
    (h : findEnum p l = some (i, m)) :
    i < l.length ∧ m ∈ l ∧ p m = true := by
  obtain ⟨h1, h2, -⟩ := (findEnum_eq_some_iff p l i m).mp h
  have hlt : i < l.length := by
    by_contra hge
    rw [List.get?_eq_none.mpr (by omega)] at h1
    cases h1
  exact ⟨hlt, List.mem_iff_get?.mpr ⟨i, h1⟩, h2⟩

/-- Inversion principle for a successful `Trace::add`. -/
theorem add_eq_some_iff (t : Trace) (pc size : Nat) (t' : Trace) :
    t.add pc size = some t'
      ↔ ∃ id m, size ≤ u16MAX
          ∧ findEnum (fun m => m.contains pc) t.modules = some (id, m)
          ∧ pc - m.base ≤ u32MAX
          ∧ id % 65536 + 1 ≤ u16MAX
          ∧ t' = ⟨t.modules, t.entries ++ [⟨pc - m.base, size, id % 65536 + 1⟩]⟩ := by
  constructor
  · intro h
    unfold Trace.add at h
    by_cases hs : size > u16MAX
    · rw [if_pos hs] at h; cases h
    rw [if_neg hs] at h
    cases hfe : findEnum (fun m => m.contains pc) t.modules with
    | none => rw [hfe] at h; cases h
    | some r =>
      obtain ⟨id, m⟩ := r
      rw [hfe] at h
      dsimp only at h
      by_cases ho : pc - m.base > u32MAX
      · rw [if_pos ho] at h; cases h
      rw [if_neg ho] at h
      by_cases hm : id % 65536 + 1 > u16MAX
      · rw [if_pos hm] at h; cases h
      rw [if_neg hm] at h
      cases h
      exact ⟨id, m, by omega, rfl, by omega, by omega, rfl⟩
  · rintro ⟨id, m, hs, hfe, ho, hm, ht⟩
    unfold Trace.add
    rw [if_neg (by omega), hfe]
    dsimp only
    rw [if_neg (by omega), if_neg (by omega), ht]

/-- Searching past a block of non-matching replicated modules just advances
the enumeration index. -/
theorem findEnumAux_replicate_append (p : Module → Bool) (x : Module) (hx : p x = false) :
    ∀ (n k : Nat) (l : List Module),
      findEnumAux p k (List.replicate n x ++ l) = findEnumAux p (k + n) l := by
  intro n
  induction n with
  | zero => intro k l; simp
  | succ n ih =>
    intro k l
    rw [List.replicate_succ, List.cons_append, findEnumAux_cons,
      if_neg (by simp [hx]), ih]
    congr 1
    omega

/-- Here `find?` is the second component of the enumerated search. -/
theorem find?_eq_findEnumAux_snd (p : Module → Bool) :
    ∀ (l : List Module) (k : Nat),
      l.find? p = (findEnumAux p k l).map Prod.snd := by
  intro l
  induction l with
  | nil => intro k; rfl
  | cons x xs ih =>
    intro k
    rw [findEnumAux_cons]
    by_cases hp : p x = true
    · rw [if_pos hp, List.find?_cons_of_pos _ hp]
      rfl
    · rw [if_neg hp, List.find?_cons_of_neg _ (by simp [Bool.eq_false_iff.mpr hp])]
      exact ih (k + 1)

/-! ## Helper lemmas about the text formatting -/

theorem digitChar_toNat_ne (k : Nat) (hk : k < 16) :
    (Nat.digitChar k).toNat ≠ 10 ∧ (Nat.digitChar k).toNat ≠ 44 := by
  interval_cases k <;> exact ⟨by decide, by decide⟩

theorem toDigitsCore_toNat_ne (b : Nat) (hb0 : 0 < b) (hb : b ≤ 16) :
    ∀ (fuel n : Nat) (ds : List Char),
      (∀ c ∈ ds, c.toNat ≠ 10 ∧ c.toNat ≠ 44) →
      ∀ c ∈ Nat.toDigitsCore b fuel n ds, c.toNat ≠ 10 ∧ c.toNat ≠ 44 := by
  intro fuel
  have hdig : ∀ n : Nat, (Nat.digitChar (n % b)).toNat ≠ 10
      ∧ (Nat.digitChar (n % b)).toNat ≠ 44 := by
    intro n
    exact digitChar_toNat_ne (n % b) (lt_of_lt_of_le (Nat.mod_lt n hb0) hb)
  induction fuel with
  | zero => intro n ds hds; exact hds
  | succ fuel ih =>
    intro n ds hds c hc
    rw [Nat.toDigitsCore] at hc
    by_cases hz : n / b = 0
    · rw [if_pos hz] at hc
      rcases List.mem_cons.mp hc with h | h
      · rw [h]; exact hdig n
      · exact hds c h
    · rw [if_neg hz] at hc
      refine ih (n / b) (Nat.digitChar (n % b) :: ds) ?_ c hc
      intro c' hc'
      rcases List.mem_cons.mp hc' with h | h
      · rw [h]; exact hdig n
      · exact hds c' h

theorem decBytes_sep_free (n : Nat) : ¬ 10 ∈ decBytes n ∧ ¬ 44 ∈ decBytes n := by
  constructor <;>
  · intro hmem
    unfold decBytes Nat.toDigits at hmem
    obtain ⟨c, hc, hcn⟩ := List.mem_map.mp hmem
    have := toDigitsCore_toNat_ne 10 (by norm_num) (by norm_num) (n + 1) n [] (by simp) c hc
    omega

theorem hexBytes_newline_free (n : Nat) : ¬ 10 ∈ hexBytes n := by
  intro hmem
  unfold hexBytes Nat.toDigits at hmem
  rcases List.mem_append.mp hmem with h | h
  · exact absurd h (by decide)
  · obtain ⟨c, hc, hcn⟩ := List.mem_map.mp h
    have := toDigitsCore_toNat_ne 16 (by norm_num) (by norm_num) (n + 1) n [] (by simp) c hc
    omega

/-- Each module-table line carries exactly one newline byte when the name has
none. -/
theorem count_newline_specModuleLine (i : Nat) (m : Module) (h : ¬ 10 ∈ m.name) :
    (specModuleLine i m).count 10 = 1 := by
  unfold specModuleLine
  simp only [List.count_append]
  rw [List.count_eq_zero.mpr (decBytes_sep_free i).1,
    List.count_eq_zero.mpr (hexBytes_newline_free m.base),
    List.count_eq_zero.mpr (hexBytes_newline_free m.endAddr),
    List.count_eq_zero.mpr h]
  decide

theorem count_newline_moduleTable_from (ms : List Module) :
    ∀ (k : Nat), (∀ m ∈ ms, ¬ 10 ∈ m.name) →
      (((ms.enumFrom k).map (fun p => specModuleLine (p.1 + 1) p.2)).flatten).count 10
        = ms.length := by
  induction ms with
  | nil => intro k _; rfl
  | cons m ms ih =>
    intro k h
    rw [List.enumFrom_cons, List.map_cons, List.flatten_cons, List.count_append,
      count_newline_specModuleLine _ _ (h m (by simp)),
      ih (k + 1) (fun m' hm' => h m' (by simp [hm']))]
    simp [Nat.add_comm]

theorem specEntryTable_length (es : List Entry) :
    (specEntryTable es).length = 12 * es.length := by
  induction es with
  | nil => rfl
  | cons e es ih =>
    unfold specEntryTable at *
    rw [List.map_cons, List.flatten_cons, List.length_append, ih,
      Entry.bytes_length]
    simp [List.length_cons]
    ring

/-! ## The claims -/

/-- C1: `Trace::write` emits exactly, in order: the `DDPH-PINTOOL` line,
the counts line built from the entry and module counts at the moment of the
call, the `MODULE_TABLE` line, one line per module in registration order
formatted `<index>, <base_hex>, <end_hex>, <name>` with a 1-based index and
`0x`-prefixed hex, the `ENTRY_TABLE` line, and one 12-byte binary record per
entry in append order — with no extra bytes. -/
theorem claim1_write_layout (t : Trace) :
    t.write []
      = strBytes "DDPH-PINTOOL" ++ [10]
        ++ (strBytes "EntryCount: " ++ decBytes t.entries.length
            ++ strBytes ", ModuleCount: " ++ decBytes t.modules.length ++ [10])
        ++ (strBytes "MODULE_TABLE" ++ [10])
        ++ specModuleTable t.modules
        ++ (strBytes "ENTRY_TABLE" ++ [10])
        ++ specEntryTable t.entries
    ∧ specModuleTable t.modules
        = (t.modules.enum.map (fun p => specModuleLine (p.1 + 1) p.2)).flatten
    ∧ (t.modules.enum.map (fun p => specModuleLine (p.1 + 1) p.2)).length
        = t.modules.length
    ∧ specEntryTable t.entries = (t.entries.map Entry.bytes).flatten
    ∧ t.entries.map (fun e => (Entry.bytes e).length)
        = List.replicate t.entries.length 12
    ∧ (specEntryTable t.entries).length = 12 * t.entries.length := by
  refine ⟨?_, rfl, ?_, rfl, ?_, specEntryTable_length t.entries⟩
  · rw [write_eq_append]
    simp [specOutput, List.append_assoc]
  · simp [List.enum_length]
  · simp [Entry.bytes_length, List.map_const']

/-- C2: every entry record is exactly 12 bytes: bytes 0-3 the 32-bit
offset, bytes 4-5 the 16-bit size, bytes 6-7 the 16-bit module index (all in
the producing machine's byte order, modelled little-endian), and bytes 8-11 a
reserved 32-bit field always written as zero. -/
theorem claim2_entry_record_layout (e : Entry) :
    e.bytes = toNeBytes 4 e.offset ++ toNeBytes 2 e.size ++ toNeBytes 2 e.module
        ++ toNeBytes 4 0
    ∧ e.bytes.length = 12
    ∧ e.bytes.take 4 = toNeBytes 4 e.offset
    ∧ (e.bytes.drop 4).take 2 = toNeBytes 2 e.size
    ∧ (e.bytes.drop 6).take 2 = toNeBytes 2 e.module
    ∧ e.bytes.drop 8 = [0, 0, 0, 0]
    ∧ fromNeBytes (e.bytes.take 4) = e.offset % 2 ^ 32
    ∧ fromNeBytes ((e.bytes.drop 4).take 2) = e.size % 2 ^ 16
    ∧ fromNeBytes ((e.bytes.drop 6).take 2) = e.module % 2 ^ 16
    ∧ fromNeBytes (e.bytes.drop 8) = 0 := by
  refine ⟨Entry.bytes_eq e, Entry.bytes_length e, rfl, rfl, rfl, rfl, ?_, ?_, ?_, ?_⟩
  · rw [show e.bytes.take 4 = toNeBytes 4 e.offset from rfl, fromNeBytes_toNeBytes]
    norm_num
  · rw [show (e.bytes.drop 4).take 2 = toNeBytes 2 e.size from rfl, fromNeBytes_toNeBytes]
    norm_num
  · rw [show (e.bytes.drop 6).take 2 = toNeBytes 2 e.module from rfl, fromNeBytes_toNeBytes]
    norm_num
  · rw [show e.bytes.drop 8 = ([0, 0, 0, 0] : List Nat) from rfl]
    rfl

/-- C8: the output is a deterministic function of the trace alone: the
bytes a write appends do not depend on what the sink already holds, so two
writes with no intervening appends emit byte-identical output. -/
theorem claim8_write_idempotent (t : Trace) :
    t.write (t.write []) = t.write [] ++ t.write []
    ∧ ∀ w : List Nat, t.write w = w ++ t.write [] := by
  have h : ∀ w : List Nat, t.write w = w ++ t.write [] := by
    intro w
    rw [write_eq_append, write_eq_append t []]
    simp
  exact ⟨h (t.write []), h⟩

/-- C5: `Module::new` fails exactly when `base >= end` or
`end - base > u32::MAX`; otherwise it succeeds and yields the module with the
given name, base and end. -/
theorem claim5_module_new (name : List Nat) (base endAddr : Nat) :
    (Module.new name base endAddr = none
      ↔ (endAddr ≤ base ∨ u32MAX < endAddr - base))
    ∧ (base < endAddr → endAddr - base ≤ u32MAX →
        Module.new name base endAddr = some ⟨name, base, endAddr⟩) := by
  unfold Module.new
  constructor
  · split_ifs with h1 h2
    · simp; omega
    · simp; omega
    · simp; omega
  · intro h1 h2
    rw [if_pos h1, if_pos h2]

/-- Witness for C5 at the doc example's module. -/
theorem claim5_module_new_witness :
    Module.new [97, 98, 99, 100] 0x1000 0x2000 = some ⟨[97, 98, 99, 100], 0x1000, 0x2000⟩ :=
  (claim5_module_new [97, 98, 99, 100] 0x1000 0x2000).2 (by decide) (by decide)

/-- C9: containment is the half-open range test `base <= pc < end`; a
constructed module contains its base and not its end; and the trace-level
query returns the first containing module in registration order, or no match
if none contains the address. -/
theorem claim9_containment :
    (∀ (m : Module) (pc : Nat), m.contains pc = true ↔ (m.base ≤ pc ∧ pc < m.endAddr))
    ∧ (∀ (name : List Nat) (base endAddr : Nat) (m : Module),
        Module.new name base endAddr = some m →
          m.contains base = true ∧ m.contains endAddr = false)
    ∧ (∀ (t : Trace) (pc : Nat),
        t.module_containing pc = none ↔ ∀ m ∈ t.modules, m.contains pc = false)
    ∧ (∀ (t : Trace) (pc : Nat) (m : Module),
        t.module_containing pc = some m
          ↔ ∃ i, t.modules.get? i = some m ∧ m.contains pc = true
              ∧ ∀ j, j < i → ∀ m', t.modules.get? j = some m' →
                  m'.contains pc = false) := by
  refine ⟨?_, ?_, ?_, ?_⟩
  · intro m pc
    simp [Module.contains]
  · intro name base endAddr m hnew
    unfold Module.new at hnew
    by_cases h1 : base < endAddr
    · rw [if_pos h1] at hnew
      by_cases h2 : endAddr - base ≤ u32MAX
      · rw [if_pos h2] at hnew
        cases hnew
        refine ⟨?_, ?_⟩
        · simp [Module.contains]
          omega
        · simp [Module.contains]
      · rw [if_neg h2] at hnew
        cases hnew
    · rw [if_neg h1] at hnew
      cases hnew
  · intro t pc
    unfold Trace.module_containing
    rw [List.find?_eq_none]
    simp
  · intro t pc m
    unfold Trace.module_containing
    rw [find?_eq_findEnumAux_snd (fun m => m.contains pc) t.modules 0,
      Option.map_eq_some']
    constructor
    · rintro ⟨⟨i, m'⟩, hr, hm⟩
      cases hm
      obtain ⟨h1, h2, h3⟩ := (findEnum_eq_some_iff (fun m => m.contains pc)
        t.modules i m').mp hr
      exact ⟨i, h1, h2, h3⟩
    · rintro ⟨i, h1, h2, h3⟩
      exact ⟨(i, m), (findEnum_eq_some_iff (fun m => m.contains pc)
        t.modules i m).mpr ⟨h1, h2, h3⟩, rfl⟩

/-- Witness for C9: the constructed doc-example module contains its base and
not its end. -/
theorem claim9_containment_witness :
    mAbcd.contains 0x1000 = true ∧ mAbcd.contains 0x2000 = false :=
  claim9_containment.2.1 [97, 98, 99, 100] 0x1000 0x2000 mAbcd (by decide)

/-- C4: an append with an address outside every registered module's
range, or with a size above `u16::MAX`, always fails (modelled `none`, the
embedding of the Rust panic), producing no new trace state — in particular
no entry is ever added by a failing call. -/
theorem claim4_add_rejects (t : Trace) (pc size : Nat)
    (h : u16MAX < size ∨ ∀ m ∈ t.modules, m.contains pc = false) :
    t.add pc size = none := by
  unfold Trace.add
  rcases h with hs | hnone
  · rw [if_pos hs]
  · by_cases hs : size > u16MAX
    · rw [if_pos hs]
    · rw [if_neg hs, findEnum_eq_none _ _ hnone]

/-- Witness for C4: the crate's own `add_out_of_bounds` test
(`0xdead` against `[0x1000, 0x2000)`), and an oversized-length call. -/
theorem claim4_add_rejects_witness :
    (Trace.new [mAbcd]).add 0xdead 10 = none
    ∧ (Trace.new [mAbcd]).add 0x1204 0x10000 = none :=
  ⟨claim4_add_rejects _ _ _ (Or.inr (by decide)),
   claim4_add_rejects _ _ _ (Or.inl (by decide))⟩

/-- C7: for a module satisfying the constructor invariant, the offset
`pc - base` of any contained `pc` fits in 32 bits, so `Trace::add` is
equivalent to the variant with the conversion-failure branch removed: that
branch is unreachable. -/
theorem claim7_offset_fits :
    (∀ (m : Module) (pc : Nat), m.Wf → m.contains pc = true →
        pc - m.base ≤ u32MAX)
    ∧ (∀ (t : Trace) (pc size : Nat), (∀ m ∈ t.modules, m.Wf) →
        t.add pc size = t.addNoCheck pc size) := by
  have hfit : ∀ (m : Module) (pc : Nat), m.Wf → m.contains pc = true →
      pc - m.base ≤ u32MAX := by
    intro m pc hwf hc
    unfold Module.Wf at hwf
    simp [Module.contains] at hc
    unfold u32MAX at *
    omega
  refine ⟨hfit, ?_⟩
  intro t pc size hwf
  unfold Trace.add Trace.addNoCheck
  by_cases hs : size > u16MAX
  · rw [if_pos hs, if_pos hs]
  · rw [if_neg hs, if_neg hs]
    cases hfe : findEnum (fun m => m.contains pc) t.modules with
    | none => rfl
    | some r =>
      obtain ⟨id, m⟩ := r
      obtain ⟨-, hmem, hcont⟩ := findEnum_some_facts _ _ _ _ hfe
      dsimp only
      rw [if_neg (by have := hfit m pc (hwf m hmem) hcont; omega)]

/-- Witness for C7 at the doc example. -/
theorem claim7_offset_fits_witness :
    (0x1204 : Nat) - mAbcd.base ≤ u32MAX
    ∧ (Trace.new [mAbcd]).add 0x1204 3 = (Trace.new [mAbcd]).addNoCheck 0x1204 3 :=
  ⟨claim7_offset_fits.1 mAbcd 0x1204 (by decide) (by decide),
   claim7_offset_fits.2 (Trace.new [mAbcd]) 0x1204 3 (by decide)⟩

/-- C3 (amended): a successful append of a contained `pc` with
`size <= u16::MAX` appends exactly one entry, with `offset = pc - base` of
the first containing module and `size` as given — provided additionally that
the 0-based index `id` of that module satisfies `id % 2^16 ≠ 65535` (the
checked `id as u16 + 1` computation); the entry's module field is
`id % 2^16 + 1`, which equals the 1-based registry index exactly when
`id < 2^16`. Modules and prior entries are unchanged. -/
theorem claim3_add_appends (t : Trace) (pc size : Nat) (id : Nat) (m : Module)
    (hwf : ∀ mm ∈ t.modules, mm.Wf)
    (hsize : size ≤ u16MAX)
    (hfind : findEnum (fun mm => mm.contains pc) t.modules = some (id, m))
    (hid : id % 65536 ≠ 65535) :
    t.add pc size
      = some ⟨t.modules, t.entries ++ [⟨pc - m.base, size, id % 65536 + 1⟩]⟩ := by
  apply (add_eq_some_iff t pc size _).mpr
  refine ⟨id, m, hsize, hfind, ?_, ?_, rfl⟩
  · obtain ⟨-, hmem, hcont⟩ := findEnum_some_facts _ _ _ _ hfind
    have hwfm := hwf m hmem
    unfold Module.Wf at hwfm
    simp [Module.contains] at hcont
    unfold u32MAX at *
    omega
  · unfold u16MAX
    omega

/-- Witness for C3's amended theorem at the doc example. -/
theorem claim3_add_appends_witness :
    (Trace.new [mAbcd]).add 0x1204 3 = some ⟨[mAbcd], [⟨0x204, 3, 1⟩]⟩ :=
  claim3_add_appends (Trace.new [mAbcd]) 0x1204 3 0 mAbcd
    (by decide) (by decide) (by decide) (by decide)

/-- Counterexample to C3 as stated: with 65537 registered modules (all
well-formed) and `pc = 0x5000` contained only in the last one — 0-based
index 65536, 1-based index 65537 — the append succeeds but the truncating
`id as u16` cast makes the entry's module field 1, not 65537. -/
theorem claim3_counterexample :
    Module.Wf mFill ∧ Module.Wf mLast
    ∧ mLast ∈ overflowModules
    ∧ mLast.contains 0x5000 = true
    ∧ mFill.contains 0x5000 = false
    ∧ (1 : Nat) ≤ u16MAX
    ∧ overflowModules.length = 65537
    ∧ findEnum (fun m => m.contains 0x5000) overflowModules = some (65536, mLast)
    ∧ overflowTrace.add 0x5000 1 = some ⟨overflowModules, [⟨0x1000, 1, 1⟩]⟩
    ∧ (1 : Nat) ≠ 65537 := by
  have hfe : findEnum (fun m => m.contains 0x5000) overflowModules
      = some (65536, mLast) := by
    unfold findEnum overflowModules
    rw [findEnumAux_replicate_append _ _ (by decide), findEnumAux_cons,
      if_pos (by decide)]
  refine ⟨by decide, by decide, ?_, by decide, by decide, by decide, ?_, hfe, ?_,
    by decide⟩
  · exact List.mem_append.mpr (Or.inr (List.mem_singleton.mpr rfl))
  · unfold overflowModules
    rw [List.length_append, List.length_replicate, List.length_singleton]
  · apply (add_eq_some_iff _ _ _ _).mpr
    exact ⟨65536, mLast, by decide, hfe, by decide, by decide, rfl⟩

/-- C6: in every trace reachable through the public API, every entry's
module field is a valid 1-based index into that trace's own registry, and 0
is never produced. -/
theorem claim6_entries_reference_registry (t : Trace) (h : Reachable t) :
    ∀ e ∈ t.entries, 1 ≤ e.module ∧ e.module ≤ t.modules.length ∧ e.module ≠ 0 := by
  induction h with
  | new ms =>
    intro e he
    simp [Trace.new] at he
  | add hr hadd ih =>
    rename_i t₁ t₂ pc size
    obtain ⟨id, m, -, hfe, -, -, ht⟩ := (add_eq_some_iff _ _ _ _).mp hadd
    subst ht
    intro e he
    simp only [List.mem_append, List.mem_singleton] at he
    rcases he with he | he
    · exact ih e he
    · subst he
      obtain ⟨hlt, -, -⟩ := findEnum_some_facts _ _ _ _ hfe
      have hmod : id % 65536 ≤ id := Nat.mod_le id 65536
      refine ⟨?_, ?_, ?_⟩
      · show 1 ≤ id % 65536 + 1
        omega
      · show id % 65536 + 1 ≤ t₁.modules.length
        omega
      · show id % 65536 + 1 ≠ 0
        omega

/-- Witness for C6 at a reachable one-entry trace. -/
theorem claim6_entries_reference_registry_witness :
    1 ≤ Entry.module ⟨0x204, 3, 1⟩
    ∧ Entry.module ⟨0x204, 3, 1⟩ ≤ (Trace.mk [mAbcd] [⟨0x204, 3, 1⟩]).modules.length
    ∧ Entry.module ⟨0x204, 3, 1⟩ ≠ 0 :=
  claim6_entries_reference_registry ⟨[mAbcd], [⟨0x204, 3, 1⟩]⟩
    (Reachable.add (Reachable.new [mAbcd])
      (show (Trace.new [mAbcd]).add 0x1204 3
          = some ⟨[mAbcd], [⟨0x204, 3, 1⟩]⟩ by decide))
    ⟨0x204, 3, 1⟩ (by simp)

/-- C10: the writer copies module names into their table lines
byte-for-byte with no escaping (the name is the verbatim tail of the line);
the module-table section has exactly one newline per module precisely when no
name contains a newline byte; and a name containing a newline (resp. a
comma) breaks the M-line (resp. four-field) shape. -/
theorem claim10_names_unescaped :
    (∀ (number : Nat) (m : Module),
      moduleLineBody number m
        = decBytes (number + 1) ++ strBytes ", " ++ hexBytes m.base
            ++ strBytes ", " ++ hexBytes m.endAddr ++ strBytes ", " ++ m.name)
    ∧ (∀ ms : List Module, (∀ m ∈ ms, ¬ 10 ∈ m.name) →
        (specModuleTable ms).count 10 = ms.length)
    ∧ (specModuleTable [⟨[97, 10, 98], 0x1000, 0x2000⟩]).count 10 = 2
    ∧ ([(⟨[97, 10, 98], 0x1000, 0x2000⟩ : Module)]).length = 1
    ∧ (2 : Nat) ≠ 1
    ∧ (specModuleLine 1 ⟨[97, 44, 98], 0x1000, 0x2000⟩).count 44 = 4
    ∧ (specModuleLine 1 ⟨[97, 98], 0x1000, 0x2000⟩).count 44 = 3 := by
  refine ⟨fun number m => rfl, ?_, by decide, by decide, by decide, by decide,
    by decide⟩
  intro ms h
  unfold specModuleTable
  exact count_newline_moduleTable_from ms 0 h

/-- Witness for C10: one module with a newline-free name yields exactly one
module-table line. -/
theorem claim10_names_unescaped_witness :
    (specModuleTable [mAbcd]).count 10 = 1 :=
  claim10_names_unescaped.2.1 [mAbcd] (by decide)

end DD
